import Mathlib

/-!
Verification development for the repository script `src/main.py`.

The script performs one HTTP GET request, prints the status code, the raw
response text and the decoded JSON body, and then writes the decoded body,
re-serialized with 4-space indentation, to the file `temp.json`.

The development shallowly embeds:
  * the JSON value model produced by Python `json.loads` (`JsonValue`,
    with objects as insertion-ordered association lists, as CPython dicts
    preserve insertion order);
  * the serializer `json.dumps(v, indent=4)` (`dumps`);
  * the strict-mode parser `json.loads` (`loads`), with the restriction
    that JSON numbers are modelled as integers: texts using floating-point
    syntax (fraction, exponent, `NaN`, `Infinity`) are outside the
    embedding and are mapped to `none`;
  * Python `str()` of the decoded value (`pyRepr`), with string `repr`
    escaping modelled for the backslash, quote, tab/newline/return and
    other control characters (CPython additionally escapes non-printable
    characters above ASCII, which no claim depends on);
  * the straight-line script itself as a trace of observable events
    (`run`), over a transport result that is either a connection-level
    failure or a response carrying a status code and a body text.
-/

/-- JSON values as decoded by Python `json.loads`: objects are
insertion-ordered association lists, numbers are modelled as integers. -/
inductive JsonValue where
  | null : JsonValue
  | bool : Bool → JsonValue
  | num : Int → JsonValue
  | str : String → JsonValue
  | arr : List JsonValue → JsonValue
  | obj : List (String × JsonValue) → JsonValue

/-- The double-quote character. -/
def quoteCh : Char := Char.ofNat 34

/-- The backslash character. -/
def bslash : Char := Char.ofNat 92

/-- The newline character emitted between indented items. -/
def nlCh : Char := Char.ofNat 10

/-- The space character. -/
def spaceCh : Char := Char.ofNat 32

/-- The opening-brace character. -/
def lbrace : Char := Char.ofNat 123

/-- The closing-brace character. -/
def rbrace : Char := Char.ofNat 125

/-- The apostrophe character (Python repr string quote). -/
def aposCh : Char := Char.ofNat 39

/-- Decimal digit character. -/
def digitChar : Nat → Char
  | 0 => '0' | 1 => '1' | 2 => '2' | 3 => '3' | 4 => '4'
  | 5 => '5' | 6 => '6' | 7 => '7' | 8 => '8' | _ => '9'

/-- Lowercase hexadecimal digit character, as produced by Python `%04x`. -/
def hexChar : Nat → Char
  | 10 => 'a' | 11 => 'b' | 12 => 'c' | 13 => 'd' | 14 => 'e' | 15 => 'f'
  | d => digitChar d

/-- Decimal digits of a natural number, most significant first, no leading
zeros (the digits of `str(n)` for a Python `int`). -/
def natDigits (m : Nat) : List Char :=
  if h : m < 10 then [digitChar m]
  else natDigits (m / 10) ++ [digitChar (m % 10)]
  termination_by m
  decreasing_by
    simp only [not_lt] at h
    omega

/-- Characters of `str(n)` for a Python integer. -/
def serInt (n : Int) : List Char :=
  if n < 0 then '-' :: natDigits n.natAbs else natDigits n.natAbs

/-- Four lowercase hex digits of `n`, as in the `\uXXXX` escapes produced
by Python `json.dumps` (`ensure_ascii` default). -/
def hex4 (n : Nat) : List Char :=
  [hexChar (n / 4096 % 16), hexChar (n / 256 % 16), hexChar (n / 16 % 16), hexChar (n % 16)]

/-- Escape of a single character in a JSON string literal, following the
CPython `json` ASCII encoder: quote and backslash get two-character
escapes, the control characters 8, 9, 10, 12, 13 get their short escapes,
other control characters and all characters above `~` get `\uXXXX`
escapes, characters above `0xFFFF` as a surrogate pair. -/
def escChar (c : Char) : List Char :=
  if c = quoteCh then [bslash, quoteCh]
  else if c = bslash then [bslash, bslash]
  else if c.toNat = 8 then [bslash, 'b']
  else if c.toNat = 9 then [bslash, 't']
  else if c.toNat = 10 then [bslash, 'n']
  else if c.toNat = 12 then [bslash, 'f']
  else if c.toNat = 13 then [bslash, 'r']
  else if c.toNat < 32 then bslash :: 'u' :: hex4 c.toNat
  else if c.toNat ≤ 126 then [c]
  else if c.toNat < 65536 then bslash :: 'u' :: hex4 c.toNat
  else
    bslash :: 'u' :: hex4 (55296 + (c.toNat - 65536) / 1024) ++
      bslash :: 'u' :: hex4 (56320 + (c.toNat - 65536) % 1024)

/-- Escape of a character list inside a JSON string literal. -/
def escList : List Char → List Char
  | [] => []
  | c :: cs => escChar c ++ escList cs

/-- Indentation prefix at nesting level `lvl` for `indent=4`. -/
def pad (lvl : Nat) : List Char := List.replicate (4 * lvl) spaceCh

/-- The keyword `null` as characters. -/
def nullTok : List Char := ['n', 'u', 'l', 'l']

/-- The keyword `true` as characters. -/
def trueTok : List Char := ['t', 'r', 'u', 'e']

/-- The keyword `false` as characters. -/
def falseTok : List Char := ['f', 'a', 'l', 's', 'e']

mutual

/-- Characters of `json.dumps(v, indent=4)` at nesting level `lvl`:
items and members are placed one per line, indented four spaces per
level, with separators `,` and `: `, and object keys in insertion order. -/
def serVal (lvl : Nat) : JsonValue → List Char
  | .null => nullTok
  | .bool b => if b then trueTok else falseTok
  | .num n => serInt n
  | .str s => quoteCh :: (escList s.data ++ [quoteCh])
  | .arr [] => ['[', ']']
  | .arr (x :: xs) =>
      '[' :: nlCh :: (pad (lvl + 1) ++ (serVal (lvl + 1) x ++ (serItems (lvl + 1) xs ++
        nlCh :: (pad lvl ++ [']']))))
  | .obj [] => [lbrace, rbrace]
  | .obj (kv :: kvs) =>
      lbrace :: nlCh :: (pad (lvl + 1) ++ (serMember (lvl + 1) kv ++ (serMembers (lvl + 1) kvs ++
        nlCh :: (pad lvl ++ [rbrace]))))

/-- Characters of one object member `"key": value`. -/
def serMember (lvl : Nat) : String × JsonValue → List Char
  | (k, v) => quoteCh :: (escList k.data ++ (quoteCh :: ':' :: spaceCh :: serVal lvl v))

/-- Characters of the remaining array items, each preceded by the
item separator and a fresh indented line. -/
def serItems (lvl : Nat) : List JsonValue → List Char
  | [] => []
  | x :: xs => ',' :: nlCh :: (pad lvl ++ (serVal lvl x ++ serItems lvl xs))

/-- Characters of the remaining object members, each preceded by the
item separator and a fresh indented line. -/
def serMembers (lvl : Nat) : List (String × JsonValue) → List Char
  | [] => []
  | kv :: kvs => ',' :: nlCh :: (pad lvl ++ (serMember lvl kv ++ serMembers lvl kvs))

end

/-- The text written by the script: `json.dumps(v, indent=4)`. -/
def dumps (v : JsonValue) : String := String.mk (serVal 0 v)

/-- JSON whitespace skipped by the Python decoder: space, tab, newline,
carriage return. -/
def isWs (c : Char) : Bool :=
  c.toNat = 32 || c.toNat = 9 || c.toNat = 10 || c.toNat = 13

/-- Drop leading JSON whitespace. -/
def skipWs : List Char → List Char
  | [] => []
  | c :: cs => if isWs c then skipWs cs else c :: cs

/-- Decimal digit test. -/
def isDigitCh (c : Char) : Bool := 48 ≤ c.toNat && c.toNat ≤ 57

/-- Value of a decimal digit character. -/
def digVal (c : Char) : Nat := c.toNat - 48

/-- Greedy decimal digit accumulation, as the number scanner consumes a
maximal digit run. -/
def parseDigitsAcc (a : Nat) : List Char → Nat × List Char
  | [] => (a, [])
  | c :: cs => if isDigitCh c then parseDigitsAcc (a * 10 + digVal c) cs else (a, c :: cs)

/-- Unsigned integer part of a JSON number: a single `0`, or a nonzero
digit followed by a maximal digit run (the `0|[1-9][0-9]*` rule). -/
def parseUNat : List Char → Option (Nat × List Char)
  | [] => none
  | c :: cs =>
    if c = '0' then some (0, cs)
    else if isDigitCh c then some (parseDigitsAcc (digVal c) cs)
    else none

/-- Whether the remaining text continues a number with a fraction or an
exponent; such numbers are floats, which are outside this embedding. -/
def isNumCont : List Char → Bool
  | [] => false
  | c :: _ => c = '.' || c = 'e' || c = 'E'

/-- Integer token of the JSON number grammar, an optional minus sign and
the `0|[1-9][0-9]*` integer part. Floating-point syntax is outside the
embedding and yields `none`. -/
def parseIntTok : List Char → Option (Int × List Char)
  | [] => none
  | c :: cs =>
    if c = '-' then
      match parseUNat cs with
      | some (m, r) => if isNumCont r then none else some (-(m : Int), r)
      | none => none
    else
      match parseUNat (c :: cs) with
      | some (m, r) => if isNumCont r then none else some ((m : Int), r)
      | none => none

/-- Value of a hexadecimal digit character, upper or lower case, as
accepted in `\uXXXX` escapes. -/
def hexVal (c : Char) : Option Nat :=
  if 48 ≤ c.toNat && c.toNat ≤ 57 then some (c.toNat - 48)
  else if 97 ≤ c.toNat && c.toNat ≤ 102 then some (c.toNat - 87)
  else if 65 ≤ c.toNat && c.toNat ≤ 70 then some (c.toNat - 55)
  else none

/-- Body of a JSON string literal after its opening quote, following the
strict-mode CPython scanner: a closing quote ends the string; a backslash
introduces one of the eight short escapes or a `\uXXXX` escape, where a
high surrogate followed by a `\uXXXX` low surrogate combines into one
code point; unescaped control characters are rejected; any other
character stands for itself. A lone surrogate escape denotes a code
point that a Lean `Char` cannot carry and is outside the embedding,
yielding `none`. One unit of fuel is spent per produced character. -/
def parseStrChars : Nat → List Char → Option (List Char × List Char)
  | 0, _ => none
  | _ + 1, [] => none
  | f + 1, c :: cs =>
    if c = quoteCh then some ([], cs)
    else if c = bslash then
      match cs with
      | [] => none
      | e :: cs2 =>
        if e = quoteCh then
          (parseStrChars f cs2).map (fun p => (quoteCh :: p.1, p.2))
        else if e = bslash then
          (parseStrChars f cs2).map (fun p => (bslash :: p.1, p.2))
        else if e = '/' then
          (parseStrChars f cs2).map (fun p => ('/' :: p.1, p.2))
        else if e = 'b' then
          (parseStrChars f cs2).map (fun p => (Char.ofNat 8 :: p.1, p.2))
        else if e = 'f' then
          (parseStrChars f cs2).map (fun p => (Char.ofNat 12 :: p.1, p.2))
        else if e = 'n' then
          (parseStrChars f cs2).map (fun p => (Char.ofNat 10 :: p.1, p.2))
        else if e = 'r' then
          (parseStrChars f cs2).map (fun p => (Char.ofNat 13 :: p.1, p.2))
        else if e = 't' then
          (parseStrChars f cs2).map (fun p => (Char.ofNat 9 :: p.1, p.2))
        else if e = 'u' then
          match cs2 with
          | h1 :: h2 :: h3 :: h4 :: cs3 =>
            match hexVal h1, hexVal h2, hexVal h3, hexVal h4 with
            | some a, some b, some c2, some d =>
              let n := ((a * 16 + b) * 16 + c2) * 16 + d
              if 55296 ≤ n && n ≤ 56319 then
                match cs3 with
                | b2 :: u2 :: g1 :: g2 :: g3 :: g4 :: cs4 =>
                  if b2 = bslash && u2 = 'u' then
                    match hexVal g1, hexVal g2, hexVal g3, hexVal g4 with
                    | some p1, some p2, some p3, some p4 =>
                      let m := ((p1 * 16 + p2) * 16 + p3) * 16 + p4
                      if 56320 ≤ m && m ≤ 57343 then
                        (parseStrChars f cs4).map
                          (fun p => (Char.ofNat (65536 + (n - 55296) * 1024 + (m - 56320)) :: p.1, p.2))
                      else none
                    | _, _, _, _ => none
                  else none
                | _ => none
              else if 56320 ≤ n && n ≤ 57343 then none
              else (parseStrChars f cs3).map (fun p => (Char.ofNat n :: p.1, p.2))
            | _, _, _, _ => none
          | _ => none
        else none
    else if c.toNat < 32 then none
    else (parseStrChars f cs).map (fun p => (c :: p.1, p.2))

/-- Insertion into the association list modelling a CPython dict: an
existing key keeps its position and receives the new value, a new key is
appended at the end. -/
def objInsert (k : String) (v : JsonValue) : List (String × JsonValue) → List (String × JsonValue)
  | [] => [(k, v)]
  | (k2, v2) :: rest => if k2 = k then (k2, v) :: rest else (k2, v2) :: objInsert k v rest

mutual

/-- Fueled JSON value parser, following the strict CPython scanner:
dispatch on the first character to a string, object, array, literal
(`null`, `true`, `false`) or number. Floats and the non-standard
`NaN`/`Infinity` constants are outside the embedding and yield `none`. -/
def parseValue : Nat → List Char → Option (JsonValue × List Char)
  | 0, _ => none
  | _ + 1, [] => none
  | f + 1, c :: cs =>
    if c = quoteCh then
      match parseStrChars f cs with
      | some (s, r) => some (.str (String.mk s), r)
      | none => none
    else if c = lbrace then
      match skipWs cs with
      | [] => none
      | d :: cs2 =>
        if d = rbrace then some (.obj [], cs2)
        else if d = quoteCh then
          match parseMembers f [] cs2 with
          | some (kvs, r) => some (.obj kvs, r)
          | none => none
        else none
    else if c = '[' then
      match skipWs cs with
      | [] => none
      | d :: cs2 =>
        if d = ']' then some (.arr [], cs2)
        else
          match parseItems f (d :: cs2) with
          | some (vs, r) => some (.arr vs, r)
          | none => none
    else if c = 'n' then
      match cs with
      | 'u' :: 'l' :: 'l' :: r => some (.null, r)
      | _ => none
    else if c = 't' then
      match cs with
      | 'r' :: 'u' :: 'e' :: r => some (.bool true, r)
      | _ => none
    else if c = 'f' then
      match cs with
      | 'a' :: 'l' :: 's' :: 'e' :: r => some (.bool false, r)
      | _ => none
    else if c = '-' || isDigitCh c then
      match parseIntTok (c :: cs) with
      | some (n, r) => some (.num n, r)
      | none => none
    else none

/-- Fueled parser for the items of a nonempty array, positioned at the
first character of an item: parse the item, then after whitespace expect
a comma and further items or the closing bracket. -/
def parseItems : Nat → List Char → Option (List JsonValue × List Char)
  | 0, _ => none
  | f + 1, cs =>
    match parseValue f cs with
    | some (v, r) =>
      match skipWs r with
      | [] => none
      | d :: r2 =>
        if d = ',' then
          match parseItems f (skipWs r2) with
          | some (vs, r3) => some (v :: vs, r3)
          | none => none
        else if d = ']' then some ([v], r2)
        else none
    | none => none

/-- Fueled parser for the members of a nonempty object, positioned right
after the opening quote of a key, accumulating into the dict `acc`:
parse the key string, expect a colon, parse the value, insert, then
after whitespace expect a comma and the quote of the next key, or the
closing brace. -/
def parseMembers : Nat → List (String × JsonValue) → List Char →
    Option (List (String × JsonValue) × List Char)
  | 0, _, _ => none
  | f + 1, acc, cs =>
    match parseStrChars f cs with
    | some (kchars, r1) =>
      match skipWs r1 with
      | [] => none
      | d1 :: r2 =>
        if d1 = ':' then
          match parseValue f (skipWs r2) with
          | some (v, r3) =>
            match skipWs r3 with
            | [] => none
            | d2 :: r4 =>
              if d2 = ',' then
                match skipWs r4 with
                | [] => none
                | q :: r5 =>
                  if q = quoteCh then parseMembers f (objInsert (String.mk kchars) v acc) r5
                  else none
              else if d2 = rbrace then some (objInsert (String.mk kchars) v acc, r4)
              else none
          | none => none
        else none
    | none => none

end

/-- The decoder `json.loads` on a character list: skip leading
whitespace, parse one value, and require only whitespace to remain.
The fuel `cs.length + 1` is sufficient for every parse that can succeed,
since each fuel unit corresponds to at least one consumed character. -/
def loadsChars (cs : List Char) : Option JsonValue :=
  match parseValue (cs.length + 1) (skipWs cs) with
  | some (v, r) => if skipWs r = [] then some v else none
  | none => none

/-- The decoder `json.loads` applied to the response text. -/
def loads (s : String) : Option JsonValue := loadsChars s.data

/-- Whether `k` does not occur among the keys of the member list. -/
def keyFresh (k : String) : List (String × JsonValue) → Bool
  | [] => true
  | (k2, _) :: rest => if k2 = k then false else keyFresh k rest

mutual

/-- Well-formedness of a decoded value: every object has pairwise
distinct keys. Every value produced by `loads` is well-formed, since a
CPython dict cannot hold a key twice. -/
def wfVal : JsonValue → Bool
  | .null => true
  | .bool _ => true
  | .num _ => true
  | .str _ => true
  | .arr xs => wfItems xs
  | .obj kvs => wfMembers kvs

/-- Well-formedness of a list of array items. -/
def wfItems : List JsonValue → Bool
  | [] => true
  | x :: xs => wfVal x && wfItems xs

/-- Well-formedness of an object member list: keys pairwise distinct and
values well-formed. -/
def wfMembers : List (String × JsonValue) → Bool
  | [] => true
  | (k, v) :: kvs => keyFresh k kvs && (wfVal v && wfMembers kvs)

end

mutual

/-- Fuel sufficient for `parseValue` to parse the serialization of `v`. -/
def fuelVal : JsonValue → Nat
  | .str s => s.data.length + 2
  | .arr (x :: xs) => 1 + itemsFuel (x :: xs)
  | .obj (kv :: kvs) => 1 + membersFuel (kv :: kvs)
  | _ => 1

/-- Fuel sufficient for `parseItems` on the serialized items. -/
def itemsFuel : List JsonValue → Nat
  | [] => 0
  | x :: xs => 1 + fuelVal x + itemsFuel xs

/-- Fuel sufficient for `parseMembers` on the serialized members. -/
def membersFuel : List (String × JsonValue) → Nat
  | [] => 0
  | (k, v) :: kvs => 1 + (k.data.length + 1) + fuelVal v + membersFuel kvs

end

/-- Escape of one character inside a Python string `repr` with quote
character `q`. Modelled from the CPython `repr`: backslash and the quote
get escaped, tab, newline and carriage return get short escapes, other
control characters and delete get `\xXX` escapes; remaining characters
stand for themselves (CPython additionally escapes non-printable
characters above ASCII, which no claim depends on). -/
def pyEscChar (q : Char) (c : Char) : List Char :=
  if c = bslash then [bslash, bslash]
  else if c = q then [bslash, q]
  else if c.toNat = 9 then [bslash, 't']
  else if c.toNat = 10 then [bslash, 'n']
  else if c.toNat = 13 then [bslash, 'r']
  else if c.toNat < 32 || c.toNat = 127 then
    [bslash, 'x', hexChar (c.toNat / 16), hexChar (c.toNat % 16)]
  else [c]

/-- Escape of a character list inside a Python string `repr`. -/
def pyEscList (q : Char) : List Char → List Char
  | [] => []
  | c :: cs => pyEscChar q c ++ pyEscList q cs

/-- Python `repr` of a string: single-quoted, unless the string contains
an apostrophe and no double quote, in which case it is double-quoted. -/
def pyStrRepr (s : String) : List Char :=
  let q := if s.data.contains aposCh && !(s.data.contains quoteCh) then quoteCh else aposCh
  q :: (pyEscList q s.data ++ [q])

mutual

/-- Characters of Python `str()` of a decoded JSON value, as printed by
`print(r.json())`: `None`, `True`, `False`, integers in decimal, strings
by `repr`, lists as `[a, b]`, dicts as `{k: v, ...}` in insertion
order. -/
def pyReprChars : JsonValue → List Char
  | .null => ['N', 'o', 'n', 'e']
  | .bool b => if b then ['T', 'r', 'u', 'e'] else ['F', 'a', 'l', 's', 'e']
  | .num n => serInt n
  | .str s => pyStrRepr s
  | .arr [] => ['[', ']']
  | .arr (x :: xs) => '[' :: (pyReprChars x ++ (pyReprItems xs ++ [']']))
  | .obj [] => [lbrace, rbrace]
  | .obj ((k, v) :: kvs) =>
      lbrace :: (pyStrRepr k ++ (':' :: spaceCh :: (pyReprChars v ++ (pyReprMembers kvs ++ [rbrace]))))

/-- Characters of the remaining list items in a Python `repr`. -/
def pyReprItems : List JsonValue → List Char
  | [] => []
  | x :: xs => ',' :: spaceCh :: (pyReprChars x ++ pyReprItems xs)

/-- Characters of the remaining dict members in a Python `repr`. -/
def pyReprMembers : List (String × JsonValue) → List Char
  | [] => []
  | (k, v) :: kvs =>
      ',' :: spaceCh :: (pyStrRepr k ++ (':' :: spaceCh :: (pyReprChars v ++ pyReprMembers kvs)))

end

/-- The text printed by `print(r.json())`. -/
def pyRepr (v : JsonValue) : String := String.mk (pyReprChars v)

/-- Outcome of the one blocking `requests.get` call: either a
connection-level failure raised by the transport, or a response carrying
an integer status code and a body text. -/
inductive TransportResult where
  | failure : TransportResult
  | response : Nat → String → TransportResult

/-- Observable events of one script run, in program order: a line printed
to standard output, the open-with-truncate of a file, a write of text to
the open file, an explicit close of a file, normal interpreter exit, or
an uncaught fatal exception aborting the run. -/
inductive Event where
  | printLine : String → Event
  | openTrunc : String → Event
  | writeFile : String → String → Event
  | closeFile : String → Event
  | exitNormal : Event
  | raiseFatal : String → Event
  deriving DecidableEq

/-- The fixed relative output path of the script. -/
def tempPath : String := "temp.json"

/-- The provider path segment hardcoded in the script. -/
def provider : String := "gh"

/-- The organization path segment hardcoded in the script. -/
def remoteOrganizationName : String := "aiden-perkins"

/-- The request URL as built by the script's f-string: the two path
segments are substituted verbatim by string concatenation, with no
URL-encoding applied. -/
def requestUrl (p org : String) : String :=
  "https://app.codacy.com/api/v3/analysis/organizations/" ++ p ++ "/" ++ org ++ "/repositories"

/-- An outbound HTTP request: method, URL and header list. -/
structure HttpRequest where
  method : String
  url : String
  headers : List (String × String)
  deriving DecidableEq

/-- The single request issued by the script: a GET to the built URL with
exactly the two headers of the `headers` dict, in insertion order. -/
def theRequest : HttpRequest :=
  { method := "GET"
    url := requestUrl provider remoteOrganizationName
    headers := [("Accept", "application/json"), ("api-token", "")] }

/-- Event trace of one run of the script, in program order, mirroring
`src/main.py` line by line: a transport failure raises before any
output; otherwise the script prints the status code, prints the raw
text, prints the decoded body (the first `r.json()` call, which raises a
fatal decode error on a body that is not valid JSON), opens `temp.json`
with truncation, decodes the body again (the second `r.json()` call
inside the `f.write(json.dumps(...))` argument), writes the 4-space
indented serialization, and falls off the end of the script without
ever closing the file. -/
def run : TransportResult → List Event
  | .failure => [.raiseFatal ("ConnectionError")]
  | .response st txt =>
    .printLine (toString st) :: .printLine txt ::
      (match loads txt with
       | none => [.raiseFatal ("JSONDecodeError")]
       | some j =>
         .printLine (pyRepr j) :: .openTrunc tempPath ::
           (match loads txt with
            | none => [.raiseFatal ("JSONDecodeError")]
            | some j2 => [.writeFile tempPath (dumps j2), .exitNormal]))

/-- Lines printed to standard output during a trace, in order. -/
def stdoutOf (tr : List Event) : List String :=
  tr.filterMap fun e =>
    match e with
    | .printLine s => some s
    | _ => none

/-- Effect of one event on the content of `temp.json` (`none` when the
file does not exist): opening with mode `w` creates or truncates the
file, a write appends to the open file, and no other event touches the
file system. -/
def applyEvent (fs : Option String) : Event → Option String
  | .openTrunc _ => some ("")
  | .writeFile _ c => some (fs.getD ("") ++ c)
  | _ => fs

/-- Content of `temp.json` after a trace, starting from content `fs`. -/
def finalFile (fs : Option String) (tr : List Event) : Option String :=
  tr.foldl applyEvent fs

/-- Power of ten that shifts past the decimal digits of `m`. -/
def tenShift (m : Nat) : Nat :=
  if m < 10 then 10 else 10 * tenShift (m / 10)
  termination_by m
  decreasing_by
    rename_i h
    simp only [not_lt] at h
    omega

/-- Whether the text cannot extend a preceding number token: it is empty
or starts with a character that is neither a digit nor a fraction or
exponent marker. -/
def numBoundary : List Char → Bool
  | [] => true
  | c :: _ => !(isDigitCh c || c = '.' || c = 'e' || c = 'E')

/-- Whether every key of `kvs` is absent from the dict `acc`. -/
def freshAll (kvs acc : List (String × JsonValue)) : Bool :=
  match kvs with
  | [] => true
  | (k, _) :: rest => keyFresh k acc && freshAll rest acc

theorem fuel_split (f : Nat) (h : 1 ≤ f) : ∃ g, f = g + 1 := by
  cases f with
  | zero => omega
  | succ g => exact ⟨g, rfl⟩

theorem isWs_spaceCh : isWs spaceCh = true := rfl

theorem isWs_nlCh : isWs nlCh = true := rfl

theorem skipWs_cons_not_ws (c : Char) (cs : List Char) (h : isWs c = false) :
    skipWs (c :: cs) = c :: cs := by
  simp [skipWs, h]

theorem skipWs_nl (cs : List Char) : skipWs (nlCh :: cs) = skipWs cs := by
  simp [skipWs, isWs_nlCh]

theorem skipWs_replicate (k : Nat) (cs : List Char) :
    skipWs (List.replicate k spaceCh ++ cs) = skipWs cs := by
  induction k with
  | zero => simp
  | succ k ih => simpa [List.replicate_succ, skipWs, isWs_spaceCh] using ih

theorem skipWs_pad (lvl : Nat) (cs : List Char) : skipWs (pad lvl ++ cs) = skipWs cs := by
  simp [pad, skipWs_replicate]

theorem isDigitCh_digitChar (d : Nat) (h : d < 10) : isDigitCh (digitChar d) = true := by
  interval_cases d <;> rfl

theorem digVal_digitChar (d : Nat) (h : d < 10) : digVal (digitChar d) = d := by
  interval_cases d <;> rfl

theorem digitChar_ne_zero (d : Nat) (h1 : 1 ≤ d) (h2 : d < 10) : ¬ digitChar d = '0' := by
  interval_cases d <;> decide

theorem not_ws_of_digit (c : Char) (h : isDigitCh c = true) : isWs c = false := by
  simp only [isDigitCh, Bool.and_eq_true, decide_eq_true_eq] at h
  simp only [isWs, Bool.or_eq_false_iff, decide_eq_false_iff_not]
  omega

theorem natDigits_lt (m : Nat) (h : m < 10) : natDigits m = [digitChar m] := by
  unfold natDigits
  simp [h]

theorem natDigits_ge (m : Nat) (h : ¬ m < 10) :
    natDigits m = natDigits (m / 10) ++ [digitChar (m % 10)] := by
  conv_lhs => unfold natDigits
  simp [h]

theorem tenShift_lt (m : Nat) (h : m < 10) : tenShift m = 10 := by
  unfold tenShift
  simp [h]

theorem tenShift_ge (m : Nat) (h : ¬ m < 10) : tenShift m = 10 * tenShift (m / 10) := by
  conv_lhs => unfold tenShift
  simp [h]

theorem parseDigitsAcc_natDigits (m : Nat) : ∀ (a : Nat) (rest : List Char),
    parseDigitsAcc a (natDigits m ++ rest) = parseDigitsAcc (a * tenShift m + m) rest := by
  intro a rest
  by_cases h : m < 10
  · rw [natDigits_lt m h, tenShift_lt m h]
    simp [parseDigitsAcc, isDigitCh_digitChar m h, digVal_digitChar m h]
  · rw [natDigits_ge m h, tenShift_ge m h, List.append_assoc]
    rw [parseDigitsAcc_natDigits (m / 10)]
    have h10 : m % 10 < 10 := Nat.mod_lt _ (by omega)
    simp only [List.singleton_append, parseDigitsAcc, isDigitCh_digitChar _ h10,
      digVal_digitChar _ h10, if_pos]
    congr 1
    rw [Nat.mul_left_comm]
    generalize a * tenShift (m / 10) = t
    omega
  termination_by m
  decreasing_by
    simp only [not_lt] at h
    omega

theorem boundary_not_digit (c : Char) (cs : List Char)
    (h : numBoundary (c :: cs) = true) : isDigitCh c = false := by
  simp only [numBoundary, Bool.not_eq_true', Bool.or_eq_false_iff] at h
  exact h.1.1.1

theorem parseDigitsAcc_boundary (a : Nat) (rest : List Char) (h : numBoundary rest = true) :
    parseDigitsAcc a rest = (a, rest) := by
  cases rest with
  | nil => rfl
  | cons c cs => simp [parseDigitsAcc, boundary_not_digit c cs h]

theorem isNumCont_eq_false (rest : List Char) (h : numBoundary rest = true) :
    isNumCont rest = false := by
  cases rest with
  | nil => rfl
  | cons c cs =>
    simp only [numBoundary, Bool.not_eq_true', Bool.or_eq_false_iff] at h
    simp [isNumCont, h.1.1.2, h.1.2, h.2]

theorem natDigits_head (m : Nat) (hm : 1 ≤ m) :
    ∃ c t, natDigits m = c :: t ∧ isDigitCh c = true ∧ ¬ c = '0' := by
  by_cases h : m < 10
  · exact ⟨digitChar m, [], natDigits_lt m h, isDigitCh_digitChar m h, digitChar_ne_zero m hm h⟩
  · obtain ⟨c, t, h1, h2, h3⟩ := natDigits_head (m / 10) (by omega)
    exact ⟨c, t ++ [digitChar (m % 10)], by rw [natDigits_ge m h, h1]; simp, h2, h3⟩
  termination_by m
  decreasing_by
    simp only [not_lt] at h
    omega

theorem parseUNat_natDigits (m : Nat) (rest : List Char) (hb : numBoundary rest = true) :
    parseUNat (natDigits m ++ rest) = some (m, rest) := by
  rcases Nat.eq_zero_or_pos m with h0 | hm
  · subst h0
    rw [natDigits_lt 0 (by omega)]
    simp [parseUNat, digitChar]
  · obtain ⟨c, t, h1, h2, h3⟩ := natDigits_head m hm
    have key := parseDigitsAcc_natDigits m 0 rest
    rw [parseDigitsAcc_boundary _ rest hb] at key
    rw [h1] at key ⊢
    simp only [List.cons_append, parseDigitsAcc, h2, if_pos] at key
    simp only [Nat.zero_mul, Nat.zero_add, Nat.zero_mul, Nat.zero_add] at key
    simp only [List.append_eq] at key
    simp [parseUNat, h3, h2, key]

theorem digit_ne_minus (c : Char) (h : isDigitCh c = true) : ¬ c = '-' := by
  intro he
  subst he
  exact absurd h (by decide)

theorem natDigits_head_ne_minus (m : Nat) :
    ∃ c t, natDigits m = c :: t ∧ ¬ c = '-' := by
  rcases Nat.eq_zero_or_pos m with h0 | hm
  · subst h0
    exact ⟨'0', [], by rw [natDigits_lt 0 (by omega)]; rfl, by decide⟩
  · obtain ⟨c, t, h1, h2, _⟩ := natDigits_head m hm
    exact ⟨c, t, h1, digit_ne_minus c h2⟩

theorem parseIntTok_serInt (n : Int) (rest : List Char) (hb : numBoundary rest = true) :
    parseIntTok (serInt n ++ rest) = some (n, rest) := by
  by_cases hn : n < 0
  · rw [serInt, if_pos hn]
    simp only [List.cons_append, parseIntTok, if_pos]
    rw [parseUNat_natDigits _ rest hb]
    simp [isNumCont_eq_false rest hb, Int.ofNat_natAbs_of_nonpos (le_of_lt hn)]
  · rw [serInt, if_neg hn]
    obtain ⟨c, t, h1, h2⟩ := natDigits_head_ne_minus n.natAbs
    rw [h1]
    simp only [List.cons_append, parseIntTok, h2, if_false, if_neg h2]
    rw [← List.cons_append, ← h1, parseUNat_natDigits _ rest hb]
    simp [isNumCont_eq_false rest hb, Int.natAbs_of_nonneg (not_lt.mp hn)]

theorem hexVal_hexChar (d : Nat) (h : d < 16) : hexVal (hexChar d) = some d := by
  interval_cases d <;> rfl

theorem char_valid_nat (c : Char) : c.toNat < 55296 ∨ (57343 < c.toNat ∧ c.toNat < 1114112) :=
  c.valid

theorem parseStrChars_uEscape (n : Nat) (hlt : n < 65536) (hlo : ¬(55296 ≤ n ∧ n ≤ 57343))
    (f : Nat) (tail : List Char) :
    parseStrChars (f + 1) (bslash :: 'u' :: (hex4 n ++ tail)) =
      (parseStrChars f tail).map (fun p => (Char.ofNat n :: p.1, p.2)) := by
  have e1 : hexVal (hexChar (n / 4096 % 16)) = some (n / 4096 % 16) := hexVal_hexChar _ (by omega)
  have e2 : hexVal (hexChar (n / 256 % 16)) = some (n / 256 % 16) := hexVal_hexChar _ (by omega)
  have e3 : hexVal (hexChar (n / 16 % 16)) = some (n / 16 % 16) := hexVal_hexChar _ (by omega)
  have e4 : hexVal (hexChar (n % 16)) = some (n % 16) := hexVal_hexChar _ (by omega)
  have hrec : ((n / 4096 % 16 * 16 + n / 256 % 16) * 16 + n / 16 % 16) * 16 + n % 16 = n := by
    omega
  have hA : ¬(55296 ≤ n ∧ n ≤ 56319) := by omega
  have hB : ¬(56320 ≤ n ∧ n ≤ 57343) := by omega
  simp [parseStrChars, hex4, e1, e2, e3, e4, hrec, hA, hB,
    (by decide : ¬ bslash = quoteCh), (by decide : ¬ ('u' : Char) = quoteCh),
    (by decide : ¬ ('u' : Char) = bslash)]

theorem parseStrChars_surrogate (n : Nat) (h1 : 65536 ≤ n) (h2 : n < 1114112)
    (f : Nat) (tail : List Char) :
    parseStrChars (f + 1) ((bslash :: 'u' :: hex4 (55296 + (n - 65536) / 1024) ++
        bslash :: 'u' :: hex4 (56320 + (n - 65536) % 1024)) ++ tail) =
      (parseStrChars f tail).map (fun p => (Char.ofNat n :: p.1, p.2)) := by
  obtain ⟨hi, hhi⟩ : ∃ x, 55296 + (n - 65536) / 1024 = x := ⟨_, rfl⟩
  obtain ⟨lo, hlo⟩ : ∃ x, 56320 + (n - 65536) % 1024 = x := ⟨_, rfl⟩
  rw [hhi, hlo]
  have f1 : hexVal (hexChar (hi / 4096 % 16)) = some (hi / 4096 % 16) := hexVal_hexChar _ (by omega)
  have f2 : hexVal (hexChar (hi / 256 % 16)) = some (hi / 256 % 16) := hexVal_hexChar _ (by omega)
  have f3 : hexVal (hexChar (hi / 16 % 16)) = some (hi / 16 % 16) := hexVal_hexChar _ (by omega)
  have f4 : hexVal (hexChar (hi % 16)) = some (hi % 16) := hexVal_hexChar _ (by omega)
  have g1 : hexVal (hexChar (lo / 4096 % 16)) = some (lo / 4096 % 16) := hexVal_hexChar _ (by omega)
  have g2 : hexVal (hexChar (lo / 256 % 16)) = some (lo / 256 % 16) := hexVal_hexChar _ (by omega)
  have g3 : hexVal (hexChar (lo / 16 % 16)) = some (lo / 16 % 16) := hexVal_hexChar _ (by omega)
  have g4 : hexVal (hexChar (lo % 16)) = some (lo % 16) := hexVal_hexChar _ (by omega)
  have hreca : ((hi / 4096 % 16 * 16 + hi / 256 % 16) * 16 + hi / 16 % 16) * 16 + hi % 16 = hi := by
    omega
  have hrecb : ((lo / 4096 % 16 * 16 + lo / 256 % 16) * 16 + lo / 16 % 16) * 16 + lo % 16 = lo := by
    omega
  have hhiR : 55296 ≤ hi ∧ hi ≤ 56319 := by omega
  have hloR : 56320 ≤ lo ∧ lo ≤ 57343 := by omega
  have hcomb : 65536 + (hi - 55296) * 1024 + (lo - 56320) = n := by omega
  simp [parseStrChars, hex4, f1, f2, f3, f4, g1, g2, g3, g4, hreca, hrecb, hhiR, hloR, hcomb,
    (by decide : ¬ bslash = quoteCh), (by decide : ¬ ('u' : Char) = quoteCh),
    (by decide : ¬ ('u' : Char) = bslash)]

theorem parseStrChars_escChar (c : Char) (f : Nat) (tail : List Char) :
    parseStrChars (f + 1) (escChar c ++ tail) =
      (parseStrChars f tail).map (fun p => (c :: p.1, p.2)) := by
  by_cases h1 : c = quoteCh
  · subst h1
    simp [escChar, parseStrChars, (by decide : ¬ bslash = quoteCh)]
  by_cases h2 : c = bslash
  · subst h2
    simp [escChar, parseStrChars, h1, (by decide : ¬ bslash = quoteCh)]
  by_cases h3 : c.toNat = 8
  · have hc : Char.ofNat 8 = c := by rw [← h3]; exact Char.ofNat_toNat c
    subst hc
    simp [escChar, parseStrChars, h1, h2, h3, (by decide : ¬ bslash = quoteCh),
      (by decide : ¬ ('b' : Char) = quoteCh), (by decide : ¬ ('b' : Char) = bslash)]
  by_cases h4 : c.toNat = 9
  · have hc : Char.ofNat 9 = c := by rw [← h4]; exact Char.ofNat_toNat c
    subst hc
    simp [escChar, parseStrChars, h1, h2, h3, h4, (by decide : ¬ bslash = quoteCh),
      (by decide : ¬ ('t' : Char) = quoteCh), (by decide : ¬ ('t' : Char) = bslash)]
  by_cases h5 : c.toNat = 10
  · have hc : Char.ofNat 10 = c := by rw [← h5]; exact Char.ofNat_toNat c
    subst hc
    simp [escChar, parseStrChars, h1, h2, h3, h4, h5, (by decide : ¬ bslash = quoteCh),
      (by decide : ¬ ('n' : Char) = quoteCh), (by decide : ¬ ('n' : Char) = bslash)]
  by_cases h6 : c.toNat = 12
  · have hc : Char.ofNat 12 = c := by rw [← h6]; exact Char.ofNat_toNat c
    subst hc
    simp [escChar, parseStrChars, h1, h2, h3, h4, h5, h6, (by decide : ¬ bslash = quoteCh),
      (by decide : ¬ ('f' : Char) = quoteCh), (by decide : ¬ ('f' : Char) = bslash)]
  by_cases h7 : c.toNat = 13
  · have hc : Char.ofNat 13 = c := by rw [← h7]; exact Char.ofNat_toNat c
    subst hc
    simp [escChar, parseStrChars, h1, h2, h3, h4, h5, h6, h7, (by decide : ¬ bslash = quoteCh),
      (by decide : ¬ ('r' : Char) = quoteCh), (by decide : ¬ ('r' : Char) = bslash)]
  by_cases h8 : c.toNat < 32
  · have hser : escChar c = bslash :: 'u' :: hex4 c.toNat := by
      simp [escChar, h1, h2, h3, h4, h5, h6, h7, h8]
    rw [hser, List.cons_append, List.cons_append,
      parseStrChars_uEscape c.toNat (by omega) (by omega) f tail, Char.ofNat_toNat]
  by_cases h9 : c.toNat ≤ 126
  · have hser : escChar c = [c] := by
      simp [escChar, h1, h2, h3, h4, h5, h6, h7, h8, h9]
    rw [hser]
    simp [parseStrChars, h1, h2, h8]
  by_cases h10 : c.toNat < 65536
  · have hser : escChar c = bslash :: 'u' :: hex4 c.toNat := by
      simp [escChar, h1, h2, h3, h4, h5, h6, h7, h8, h9, h10]
    have hval := char_valid_nat c
    rw [hser, List.cons_append, List.cons_append,
      parseStrChars_uEscape c.toNat (by omega) (by omega) f tail, Char.ofNat_toNat]
  · have hser : escChar c = bslash :: 'u' :: hex4 (55296 + (c.toNat - 65536) / 1024) ++
        bslash :: 'u' :: hex4 (56320 + (c.toNat - 65536) % 1024) := by
      simp [escChar, h1, h2, h3, h4, h5, h6, h7, h8, h9, h10]
    have hval := char_valid_nat c
    rw [hser, parseStrChars_surrogate c.toNat (by omega) (by omega) f tail, Char.ofNat_toNat]

theorem parseStrChars_escList (l : List Char) : ∀ (f : Nat) (rest : List Char),
    l.length < f →
    parseStrChars f (escList l ++ (quoteCh :: rest)) = some (l, rest) := by
  induction l with
  | nil =>
    intro f rest hf
    obtain ⟨g, rfl⟩ := fuel_split f (by omega)
    simp [escList, parseStrChars]
  | cons c t ih =>
    intro f rest hf
    obtain ⟨g, rfl⟩ := fuel_split f (by omega)
    rw [escList, List.append_assoc, parseStrChars_escChar c g _,
      ih g rest (by simpa using Nat.lt_of_succ_lt_succ hf)]
    rfl

theorem string_mk_data (s : String) : String.mk s.data = s := rfl

theorem toNat_of_digit (c : Char) (h : isDigitCh c = true) : 48 ≤ c.toNat ∧ c.toNat ≤ 57 := by
  simpa [isDigitCh, Bool.and_eq_true, decide_eq_true_eq] using h

theorem natDigits_head_digit (m : Nat) : ∃ c t, natDigits m = c :: t ∧ isDigitCh c = true := by
  rcases Nat.eq_zero_or_pos m with h0 | hm
  · subst h0
    refine ⟨'0', [], ?_, by decide⟩
    rw [natDigits_lt 0 (by omega)]
    rfl
  · obtain ⟨c, t, h1, h2, _⟩ := natDigits_head m hm
    exact ⟨c, t, h1, h2⟩

theorem digit_not_special (c : Char) (h : isDigitCh c = true) :
    ¬ c = quoteCh ∧ ¬ c = lbrace ∧ ¬ c = '[' ∧ ¬ c = 'n' ∧ ¬ c = 't' ∧ ¬ c = 'f' := by
  have hn := toNat_of_digit c h
  refine ⟨fun he => ?_, fun he => ?_, fun he => ?_, fun he => ?_, fun he => ?_, fun he => ?_⟩ <;>
    (subst he; revert hn; decide)

theorem serVal_head (lvl : Nat) (v : JsonValue) :
    ∃ c t, serVal lvl v = c :: t ∧ isWs c = false ∧ ¬ c = ']' := by
  cases v with
  | null => exact ⟨'n', ['u', 'l', 'l'], by simp [serVal, nullTok], by decide, by decide⟩
  | bool b =>
    cases b with
    | false =>
      exact ⟨'f', ['a', 'l', 's', 'e'], by simp [serVal, falseTok], by decide, by decide⟩
    | true => exact ⟨'t', ['r', 'u', 'e'], by simp [serVal, trueTok], by decide, by decide⟩
  | num n =>
    by_cases hn : n < 0
    · exact ⟨'-', natDigits n.natAbs, by simp [serVal, serInt, hn], by decide, by decide⟩
    · obtain ⟨c, t, h1, h2⟩ := natDigits_head_digit n.natAbs
      refine ⟨c, t, by simp [serVal, serInt, hn, h1], not_ws_of_digit c h2, ?_⟩
      intro he
      subst he
      exact absurd h2 (by decide)
  | str s => exact ⟨quoteCh, escList s.data ++ [quoteCh], by simp [serVal], by decide, by decide⟩
  | arr xs =>
    cases xs with
    | nil => exact ⟨'[', [']'], by simp [serVal], by decide, by decide⟩
    | cons x xs =>
      exact ⟨'[', nlCh :: (pad (lvl + 1) ++ (serVal (lvl + 1) x ++ (serItems (lvl + 1) xs ++
        nlCh :: (pad lvl ++ [']'])))), by simp [serVal], by decide, by decide⟩
  | obj kvs =>
    cases kvs with
    | nil => exact ⟨lbrace, [rbrace], by simp [serVal], by decide, by decide⟩
    | cons kv kvs =>
      exact ⟨lbrace, nlCh :: (pad (lvl + 1) ++ (serMember (lvl + 1) kv ++ (serMembers (lvl + 1) kvs ++
        nlCh :: (pad lvl ++ [rbrace])))), by simp [serVal], by decide, by decide⟩

theorem skipWs_serVal (lvl : Nat) (v : JsonValue) (rest : List Char) :
    skipWs (serVal lvl v ++ rest) = serVal lvl v ++ rest := by
  obtain ⟨c, t, h1, h2, _⟩ := serVal_head lvl v
  rw [h1, List.cons_append, skipWs_cons_not_ws c _ h2, ← List.cons_append]

theorem numBoundary_cons (c : Char) (cs : List Char) (h1 : isDigitCh c = false)
    (h2 : ¬ c = '.') (h3 : ¬ c = 'e') (h4 : ¬ c = 'E') : numBoundary (c :: cs) = true := by
  simp [numBoundary, h1, h2, h3, h4]

theorem numBoundary_comma (cs : List Char) : numBoundary (',' :: cs) = true :=
  numBoundary_cons _ _ (by decide) (by decide) (by decide) (by decide)

theorem numBoundary_nl (cs : List Char) : numBoundary (nlCh :: cs) = true :=
  numBoundary_cons _ _ (by decide) (by decide) (by decide) (by decide)

theorem objInsert_fresh (k : String) (v : JsonValue) (acc : List (String × JsonValue))
    (h : keyFresh k acc = true) : objInsert k v acc = acc ++ [(k, v)] := by
  induction acc with
  | nil => rfl
  | cons kv rest ih =>
    obtain ⟨k2, v2⟩ := kv
    simp only [keyFresh] at h
    split at h
    · exact absurd h (by simp)
    · rename_i hne
      simp [objInsert, hne, ih h]

theorem keyFresh_append (q : String) (l1 l2 : List (String × JsonValue)) :
    keyFresh q (l1 ++ l2) = (keyFresh q l1 && keyFresh q l2) := by
  induction l1 with
  | nil => simp [keyFresh]
  | cons kv rest ih =>
    obtain ⟨k2, v2⟩ := kv
    simp only [List.cons_append, keyFresh]
    split
    · simp
    · simpa using ih

theorem freshAll_nil_acc (kvs : List (String × JsonValue)) : freshAll kvs [] = true := by
  induction kvs with
  | nil => rfl
  | cons kv rest ih =>
    obtain ⟨k2, v2⟩ := kv
    simp [freshAll, keyFresh, ih]

theorem freshAll_extend (kvs : List (String × JsonValue)) (acc : List (String × JsonValue))
    (k : String) (v : JsonValue)
    (h1 : freshAll kvs acc = true) (h2 : keyFresh k kvs = true) :
    freshAll kvs (acc ++ [(k, v)]) = true := by
  induction kvs with
  | nil => rfl
  | cons kv rest ih =>
    obtain ⟨k2, v2⟩ := kv
    simp only [freshAll, Bool.and_eq_true] at h1 ⊢
    simp only [keyFresh] at h2
    split at h2
    · exact absurd h2 (by simp)
    · rename_i hne
      refine ⟨?_, ih h1.2 h2⟩
      rw [keyFresh_append]
      simp only [h1.1, Bool.true_and, keyFresh]
      have hkk : ¬ k = k2 := fun he => hne he.symm
      simp [hkk]

theorem keyFresh_objInsert (q k : String) (v : JsonValue) (rest : List (String × JsonValue))
    (h1 : keyFresh q rest = true) (h2 : ¬ k = q) : keyFresh q (objInsert k v rest) = true := by
  induction rest with
  | nil => simp [objInsert, keyFresh, h2]
  | cons kv r ih =>
    obtain ⟨k2, v2⟩ := kv
    simp only [keyFresh] at h1
    split at h1
    · exact absurd h1 (by simp)
    · rename_i hne
      by_cases he : k2 = k
      · subst he
        simp [objInsert, keyFresh, h2, h1]
      · simp [objInsert, he, keyFresh, hne, ih h1]

theorem wfMembers_objInsert (k : String) (v : JsonValue) (acc : List (String × JsonValue))
    (h1 : wfMembers acc = true) (h2 : wfVal v = true) :
    wfMembers (objInsert k v acc) = true := by
  induction acc with
  | nil => simp [objInsert, wfMembers, keyFresh, h2]
  | cons kv rest ih =>
    obtain ⟨k2, v2⟩ := kv
    simp only [wfMembers, Bool.and_eq_true] at h1
    by_cases he : k2 = k
    · subst he
      simp [objInsert, wfMembers, h1.1, h2, h1.2.2]
    · simp [objInsert, he, wfMembers, Bool.and_eq_true]
      exact ⟨keyFresh_objInsert k2 k v rest h1.1 (fun hh => he hh.symm), h1.2.1, ih h1.2.2⟩

theorem escChar_length_pos (c : Char) : 1 ≤ (escChar c).length := by
  unfold escChar
  repeat' split
  all_goals norm_num [hex4]

theorem escList_length (l : List Char) : l.length ≤ (escList l).length := by
  induction l with
  | nil => simp [escList]
  | cons c t ih =>
    simp only [escList, List.length_append, List.length_cons]
    have := escChar_length_pos c
    omega

theorem natDigits_length_pos (m : Nat) : 1 ≤ (natDigits m).length := by
  by_cases h : m < 10
  · simp [natDigits_lt m h]
  · simp [natDigits_ge m h]

theorem serInt_length_pos (n : Int) : 1 ≤ (serInt n).length := by
  unfold serInt
  split
  · simp
  · exact natDigits_length_pos _

mutual

theorem fuelVal_le_length (lvl : Nat) (v : JsonValue) : fuelVal v ≤ (serVal lvl v).length := by
  cases v with
  | null => simp [fuelVal, serVal, nullTok]
  | bool b => cases b <;> simp [fuelVal, serVal, trueTok, falseTok]
  | num n => simpa [fuelVal, serVal] using serInt_length_pos n
  | str s =>
    simp only [fuelVal, serVal, List.length_cons, List.length_append]
    have := escList_length s.data
    omega
  | arr xs =>
    cases xs with
    | nil => simp [fuelVal, serVal]
    | cons x t =>
      have h1 := fuelVal_le_length (lvl + 1) x
      have h2 := itemsFuel_le_length (lvl + 1) t
      simp only [fuelVal, itemsFuel, serVal, List.length_cons, List.length_append, pad,
        List.length_replicate]
      omega
  | obj kvs =>
    cases kvs with
    | nil => simp [fuelVal, serVal]
    | cons kv t =>
      obtain ⟨k, v2⟩ := kv
      have h1 := fuelVal_le_length (lvl + 1) v2
      have h2 := membersFuel_le_length (lvl + 1) t
      have h3 := escList_length k.data
      simp only [fuelVal, membersFuel, serVal, serMember, List.length_cons, List.length_append,
        pad, List.length_replicate]
      omega
  termination_by sizeOf v

theorem itemsFuel_le_length (lvl : Nat) (xs : List JsonValue) :
    itemsFuel xs ≤ 2 + (serItems lvl xs).length := by
  cases xs with
  | nil => simp [itemsFuel]
  | cons x t =>
    have h1 := fuelVal_le_length lvl x
    have h2 := itemsFuel_le_length lvl t
    simp only [itemsFuel, serItems, List.length_cons, List.length_append, pad,
      List.length_replicate]
    omega
  termination_by sizeOf xs

theorem membersFuel_le_length (lvl : Nat) (kvs : List (String × JsonValue)) :
    membersFuel kvs ≤ 2 + (serMembers lvl kvs).length := by
  cases kvs with
  | nil => simp [membersFuel]
  | cons kv t =>
    obtain ⟨k, v⟩ := kv
    have h1 := fuelVal_le_length lvl v
    have h2 := membersFuel_le_length lvl t
    have h3 := escList_length k.data
    simp only [membersFuel, serMembers, serMember, List.length_cons, List.length_append, pad,
      List.length_replicate]
    omega
  termination_by sizeOf kvs

end

theorem fuelVal_pos (v : JsonValue) : 1 ≤ fuelVal v := by
  cases v with
  | null => simp [fuelVal]
  | bool b => simp [fuelVal]
  | num n => simp [fuelVal]
  | str s => simp [fuelVal]
  | arr xs =>
    cases xs with
    | nil => simp [fuelVal]
    | cons x t =>
      simp only [fuelVal, itemsFuel]
      omega
  | obj kvs =>
    cases kvs with
    | nil => simp [fuelVal]
    | cons kv t =>
      obtain ⟨k, v⟩ := kv
      simp only [fuelVal, membersFuel]
      omega

theorem skipWs_colon (cs : List Char) : skipWs (':' :: cs) = ':' :: cs :=
  skipWs_cons_not_ws _ _ (by decide)

theorem skipWs_comma (cs : List Char) : skipWs (',' :: cs) = ',' :: cs :=
  skipWs_cons_not_ws _ _ (by decide)

theorem skipWs_quote (cs : List Char) : skipWs (quoteCh :: cs) = quoteCh :: cs :=
  skipWs_cons_not_ws _ _ (by decide)

theorem skipWs_rbracket (cs : List Char) : skipWs (']' :: cs) = ']' :: cs :=
  skipWs_cons_not_ws _ _ (by decide)

theorem skipWs_rbrace (cs : List Char) : skipWs (rbrace :: cs) = rbrace :: cs :=
  skipWs_cons_not_ws _ _ (by decide)

theorem skipWs_space (cs : List Char) : skipWs (spaceCh :: cs) = skipWs cs := by
  rw [skipWs, if_pos isWs_spaceCh]

theorem sizeOf_json_pos (v : JsonValue) : 1 ≤ sizeOf v := by
  cases v <;> simp_arith

theorem sizeOf_jlist_pos (xs : List JsonValue) : 1 ≤ sizeOf xs := by
  cases xs <;> simp_arith

theorem sizeOf_mlist_pos (kvs : List (String × JsonValue)) : 1 ≤ sizeOf kvs := by
  cases kvs <;> simp_arith

theorem roundtripAux (N : Nat) :
    (∀ v : JsonValue, sizeOf v ≤ N → ∀ (lvl f : Nat) (rest : List Char),
      wfVal v = true → fuelVal v ≤ f → numBoundary rest = true →
      parseValue f (serVal lvl v ++ rest) = some (v, rest)) ∧
    (∀ (x : JsonValue) (xs : List JsonValue), sizeOf x + sizeOf xs ≤ N →
      ∀ (lvl g : Nat) (rest : List Char),
      wfItems (x :: xs) = true → itemsFuel (x :: xs) ≤ g → numBoundary rest = true →
      parseItems g (serVal (lvl + 1) x ++ (serItems (lvl + 1) xs ++ (nlCh :: (pad lvl ++
        (']' :: rest))))) = some (x :: xs, rest)) ∧
    (∀ (k : String) (v : JsonValue) (kvs : List (String × JsonValue)),
      sizeOf v + sizeOf kvs ≤ N →
      ∀ (lvl g : Nat) (acc : List (String × JsonValue)) (rest : List Char),
      wfMembers ((k, v) :: kvs) = true → membersFuel ((k, v) :: kvs) ≤ g →
      numBoundary rest = true → freshAll ((k, v) :: kvs) acc = true →
      parseMembers g acc (escList k.data ++ (quoteCh :: (':' :: (spaceCh :: (serVal (lvl + 1) v ++
        (serMembers (lvl + 1) kvs ++ (nlCh :: (pad lvl ++ (rbrace :: rest))))))))) =
        some (acc ++ ((k, v) :: kvs), rest)) := by
  induction N using Nat.strong_induction_on with
  | _ N ih =>
  have ihv : ∀ v : JsonValue, sizeOf v < N → ∀ (lvl f : Nat) (rest : List Char),
      wfVal v = true → fuelVal v ≤ f → numBoundary rest = true →
      parseValue f (serVal lvl v ++ rest) = some (v, rest) :=
    fun v hv => (ih (sizeOf v) hv).1 v (le_refl _)
  have ihi : ∀ (x : JsonValue) (xs : List JsonValue), sizeOf x + sizeOf xs < N →
      ∀ (lvl g : Nat) (rest : List Char),
      wfItems (x :: xs) = true → itemsFuel (x :: xs) ≤ g → numBoundary rest = true →
      parseItems g (serVal (lvl + 1) x ++ (serItems (lvl + 1) xs ++ (nlCh :: (pad lvl ++
        (']' :: rest))))) = some (x :: xs, rest) :=
    fun x xs h => (ih (sizeOf x + sizeOf xs) h).2.1 x xs (le_refl _)
  have ihm : ∀ (k : String) (v : JsonValue) (kvs : List (String × JsonValue)),
      sizeOf v + sizeOf kvs < N →
      ∀ (lvl g : Nat) (acc : List (String × JsonValue)) (rest : List Char),
      wfMembers ((k, v) :: kvs) = true → membersFuel ((k, v) :: kvs) ≤ g →
      numBoundary rest = true → freshAll ((k, v) :: kvs) acc = true →
      parseMembers g acc (escList k.data ++ (quoteCh :: (':' :: (spaceCh :: (serVal (lvl + 1) v ++
        (serMembers (lvl + 1) kvs ++ (nlCh :: (pad lvl ++ (rbrace :: rest))))))))) =
        some (acc ++ ((k, v) :: kvs), rest) :=
    fun k v kvs h => (ih (sizeOf v + sizeOf kvs) h).2.2 k v kvs (le_refl _)
  refine ⟨?_, ?_, ?_⟩
  · -- value part
    intro v hsize lvl f rest hwf hf hb
    obtain ⟨g, rfl⟩ := fuel_split f (by have := fuelVal_pos v; omega)
    cases v with
    | null =>
      simp [serVal, nullTok, parseValue, (by decide : ¬ ('n' : Char) = quoteCh),
        (by decide : ¬ ('n' : Char) = lbrace)]
    | bool b =>
      cases b with
      | true =>
        simp [serVal, trueTok, parseValue, (by decide : ¬ ('t' : Char) = quoteCh),
          (by decide : ¬ ('t' : Char) = lbrace)]
      | false =>
        simp [serVal, falseTok, parseValue, (by decide : ¬ ('f' : Char) = quoteCh),
          (by decide : ¬ ('f' : Char) = lbrace)]
    | num n =>
      have hkey := parseIntTok_serInt n rest hb
      obtain ⟨c, t, h1, h2⟩ : ∃ c t, serInt n = c :: t ∧ (c = '-' ∨ isDigitCh c = true) := by
        by_cases hn : n < 0
        · exact ⟨'-', natDigits n.natAbs, by simp [serInt, hn], Or.inl rfl⟩
        · obtain ⟨c, t, hh, hd⟩ := natDigits_head_digit n.natAbs
          exact ⟨c, t, by simp [serInt, hn, hh], Or.inr hd⟩
      have hq : ¬ c = quoteCh := by
        rcases h2 with h2 | h2
        · subst h2; decide
        · exact (digit_not_special c h2).1
      have hbr : ¬ c = lbrace := by
        rcases h2 with h2 | h2
        · subst h2; decide
        · exact (digit_not_special c h2).2.1
      have hlb : ¬ c = '[' := by
        rcases h2 with h2 | h2
        · subst h2; decide
        · exact (digit_not_special c h2).2.2.1
      have hn' : ¬ c = 'n' := by
        rcases h2 with h2 | h2
        · subst h2; decide
        · exact (digit_not_special c h2).2.2.2.1
      have ht' : ¬ c = 't' := by
        rcases h2 with h2 | h2
        · subst h2; decide
        · exact (digit_not_special c h2).2.2.2.2.1
      have hf' : ¬ c = 'f' := by
        rcases h2 with h2 | h2
        · subst h2; decide
        · exact (digit_not_special c h2).2.2.2.2.2
      have hnum : (c = '-' || isDigitCh c) = true := by
        rcases h2 with h2 | h2
        · simp [h2]
        · simp [h2]
      have hser : serVal lvl (.num n) = c :: t := by simp [serVal, h1]
      rw [hser, List.cons_append]
      simp only [parseValue, hq, hbr, hlb, hn', ht', hf', hnum, if_false, if_true, ite_false,
        ite_true]
      rw [← List.cons_append, ← h1]
      rw [hkey]
    | str s =>
      have hlen : s.data.length < g := by
        simp only [fuelVal] at hf
        omega
      simp only [serVal, List.cons_append, List.append_assoc, List.singleton_append,
        List.nil_append]
      simp only [parseValue, if_true, ite_true]
      rw [parseStrChars_escList s.data g rest hlen]
    | arr xs =>
      cases xs with
      | nil =>
        simp [serVal, parseValue, (by decide : ¬ ('[' : Char) = quoteCh),
          (by decide : ¬ ('[' : Char) = lbrace), skipWs,
          (by decide : isWs (']' : Char) = false)]
      | cons x t =>
        have hfa : itemsFuel (x :: t) ≤ g := by
          simp only [fuelVal] at hf
          omega
        have hwf' : wfItems (x :: t) = true := by simpa [wfVal] using hwf
        have hsz : sizeOf x + sizeOf t < N := by
          simp only [JsonValue.arr.sizeOf_spec, List.cons.sizeOf_spec] at hsize
          omega
        simp only [serVal, List.cons_append, List.append_assoc, List.singleton_append,
          List.nil_append]
        simp only [parseValue, (by decide : ¬ ('[' : Char) = quoteCh),
          (by decide : ¬ ('[' : Char) = lbrace), if_false, ite_false, ite_true, if_pos]
        rw [skipWs_nl, skipWs_pad, skipWs_serVal]
        obtain ⟨c, t2, hct, hcw, hne⟩ := serVal_head (lvl + 1) x
        rw [hct, List.cons_append]
        simp only [hne, if_false, ite_false]
        rw [← List.cons_append, ← hct]
        rw [ihi x t hsz lvl g rest hwf' hfa hb]
    | obj kvs =>
      cases kvs with
      | nil =>
        simp [serVal, parseValue, (by decide : ¬ lbrace = quoteCh), skipWs,
          (by decide : isWs rbrace = false)]
      | cons kv t =>
        obtain ⟨k, v2⟩ := kv
        have hfm : membersFuel ((k, v2) :: t) ≤ g := by
          simp only [fuelVal] at hf
          omega
        have hwf' : wfMembers ((k, v2) :: t) = true := by simpa [wfVal] using hwf
        have hsz : sizeOf v2 + sizeOf t < N := by
          simp only [JsonValue.obj.sizeOf_spec, List.cons.sizeOf_spec,
            Prod.mk.sizeOf_spec] at hsize
          omega
        simp only [serVal, serMember, List.cons_append, List.append_assoc,
          List.singleton_append, List.nil_append]
        simp only [parseValue, (by decide : ¬ lbrace = quoteCh), if_false, ite_false, ite_true,
          if_pos]
        rw [skipWs_nl, skipWs_pad, skipWs_quote]
        simp only [(by decide : ¬ quoteCh = rbrace), if_false, ite_false, ite_true, if_pos]
        rw [ihm k v2 t hsz lvl g [] rest hwf' hfm hb (freshAll_nil_acc _)]
        simp
  · -- items part
    intro x xs hsize lvl g rest hwf hfuel hb
    obtain ⟨f, rfl⟩ := fuel_split g (by
      simp only [itemsFuel] at hfuel
      have := fuelVal_pos x
      omega)
    simp only [wfItems, Bool.and_eq_true] at hwf
    simp only [itemsFuel] at hfuel
    have hbR : numBoundary (serItems (lvl + 1) xs ++ (nlCh :: (pad lvl ++
        (']' :: rest)))) = true := by
      cases xs with
      | nil => simpa [serItems] using numBoundary_nl _
      | cons y ys => simpa [serItems] using numBoundary_comma _
    have hszx : sizeOf x < N := by
      have := sizeOf_jlist_pos xs
      omega
    simp only [parseItems]
    rw [ihv x hszx (lvl + 1) f _ hwf.1 (by omega) hbR]
    cases xs with
    | nil =>
      simp only [serItems, List.nil_append]
      rw [skipWs_nl, skipWs_pad, skipWs_rbracket]
      simp [(by decide : ¬ (']' : Char) = ',')]
    | cons y ys =>
      have hszy : sizeOf y + sizeOf ys < N := by
        have := sizeOf_json_pos x
        simp only [List.cons.sizeOf_spec] at hsize
        omega
      simp only [serItems, List.cons_append, List.append_assoc]
      rw [skipWs_comma]
      simp only [if_pos, ite_true, if_true, reduceIte]
      rw [skipWs_nl, skipWs_pad, skipWs_serVal]
      rw [ihi y ys hszy lvl f rest (by simpa [wfItems] using hwf.2) (by omega) hb]
  · -- members part
    intro k v kvs hsize lvl g acc rest hwf hfuel hb hfresh
    obtain ⟨f, rfl⟩ := fuel_split g (by simp only [membersFuel] at hfuel; omega)
    simp only [wfMembers, Bool.and_eq_true] at hwf
    simp only [membersFuel] at hfuel
    simp only [freshAll, Bool.and_eq_true] at hfresh
    have hoi : objInsert k v acc = acc ++ [(k, v)] := objInsert_fresh k v acc hfresh.1
    have hszv : sizeOf v < N := by
      have := sizeOf_mlist_pos kvs
      omega
    cases kvs with
    | nil =>
      have hkey := parseStrChars_escList k.data f (':' :: (spaceCh :: (serVal (lvl + 1) v ++
        (nlCh :: (pad lvl ++ (rbrace :: rest)))))) (by omega)
      have hval := ihv v hszv (lvl + 1) f (nlCh :: (pad lvl ++ (rbrace :: rest)))
        hwf.2.1 (by omega) (numBoundary_nl _)
      simp only [serMembers, List.nil_append]
      simp only [parseMembers, hkey, skipWs_colon, skipWs_space, skipWs_serVal, hval,
        skipWs_nl, skipWs_pad, skipWs_rbrace, string_mk_data, hoi,
        (by decide : ¬ rbrace = ',')]
      simp
    | cons kv2 t2 =>
      obtain ⟨k2, v2⟩ := kv2
      have hszr : sizeOf v2 + sizeOf t2 < N := by
        have := sizeOf_json_pos v
        simp only [List.cons.sizeOf_spec, Prod.mk.sizeOf_spec] at hsize
        omega
      have hbR : numBoundary (serMembers (lvl + 1) ((k2, v2) :: t2) ++
          (nlCh :: (pad lvl ++ (rbrace :: rest)))) = true := by
        simpa [serMembers] using numBoundary_comma _
      have hkey := parseStrChars_escList k.data f (':' :: (spaceCh :: (serVal (lvl + 1) v ++
        (serMembers (lvl + 1) ((k2, v2) :: t2) ++ (nlCh :: (pad lvl ++ (rbrace :: rest)))))))
        (by omega)
      have hval := ihv v hszv (lvl + 1) f (serMembers (lvl + 1) ((k2, v2) :: t2) ++
        (nlCh :: (pad lvl ++ (rbrace :: rest)))) hwf.2.1 (by omega) hbR
      have hrec := ihm k2 v2 t2 hszr lvl f (acc ++ [(k, v)]) rest hwf.2.2 (by omega) hb
        (freshAll_extend _ acc k v hfresh.2 hwf.1)
      simp only [parseMembers, hkey, skipWs_colon, skipWs_space, skipWs_serVal, hval,
        string_mk_data, hoi]
      simp only [serMembers, serMember, List.cons_append, List.append_assoc, List.nil_append,
        skipWs_comma, skipWs_nl, skipWs_pad, skipWs_quote]
      simp only [hrec, (by decide : ¬ rbrace = ',')]
      simp [List.append_assoc]

theorem parseValue_serVal (v : JsonValue) (lvl f : Nat) (rest : List Char)
    (hwf : wfVal v = true) (hf : fuelVal v ≤ f) (hb : numBoundary rest = true) :
    parseValue f (serVal lvl v ++ rest) = some (v, rest) :=
  (roundtripAux (sizeOf v)).1 v (le_refl _) lvl f rest hwf hf hb

theorem parseWfAux (f : Nat) :
    (∀ cs v r, parseValue f cs = some (v, r) → wfVal v = true) ∧
    (∀ cs vs r, parseItems f cs = some (vs, r) → wfItems vs = true) ∧
    (∀ acc cs ms r, wfMembers acc = true → parseMembers f acc cs = some (ms, r) →
      wfMembers ms = true) := by
  induction f with
  | zero =>
    refine ⟨?_, ?_, ?_⟩
    · intro cs v r h
      simp [parseValue] at h
    · intro cs vs r h
      simp [parseItems] at h
    · intro acc cs ms r hacc h
      simp [parseMembers] at h
  | succ f ih =>
    obtain ⟨ihv, ihi, ihm⟩ := ih
    refine ⟨?_, ?_, ?_⟩
    · intro cs v r h
      cases cs with
      | nil => simp [parseValue] at h
      | cons c cs =>
        simp only [parseValue] at h
        repeat' split at h
        all_goals try (exact Option.noConfusion h)
        all_goals obtain ⟨rfl, rfl⟩ := by simpa using h
        all_goals simp only [wfVal, wfItems, wfMembers]
        · exact ihm [] _ _ _ rfl (by assumption)
        · exact ihi _ _ _ (by assumption)
    · intro cs vs r h
      simp only [parseItems] at h
      repeat' split at h
      all_goals try (exact Option.noConfusion h)
      all_goals obtain ⟨rfl, rfl⟩ := by simpa using h
      · simp only [wfItems, Bool.and_eq_true]
        exact ⟨ihv _ _ _ (by assumption), ihi _ _ _ (by assumption)⟩
      · simp only [wfItems, Bool.and_eq_true]
        exact ⟨ihv _ _ _ (by assumption), trivial⟩
    · intro acc cs ms r hacc h
      simp only [parseMembers] at h
      repeat' split at h
      all_goals try (exact Option.noConfusion h)
      · exact ihm _ _ _ _ (wfMembers_objInsert _ _ _ hacc (ihv _ _ _ (by assumption))) h
      · obtain ⟨rfl, rfl⟩ := by simpa using h
        exact wfMembers_objInsert _ _ _ hacc (ihv _ _ _ (by assumption))

theorem data_mk (l : List Char) : (String.mk l).data = l := rfl

theorem loads_wf (s : String) (v : JsonValue) (h : loads s = some v) : wfVal v = true := by
  simp only [loads, loadsChars] at h
  split at h
  · rename_i p v2 r heq
    split at h
    · obtain rfl : v2 = v := by simpa using h
      exact (parseWfAux _).1 _ _ _ heq
    · exact Option.noConfusion h
  · exact Option.noConfusion h

theorem loads_dumps (v : JsonValue) (h : wfVal v = true) : loads (dumps v) = some v := by
  have hskip : skipWs (serVal 0 v) = serVal 0 v := by
    have h2 := skipWs_serVal 0 v []
    simpa using h2
  have hps : parseValue ((serVal 0 v).length + 1) (serVal 0 v ++ []) = some (v, []) :=
    parseValue_serVal v 0 _ [] h (by have := fuelVal_le_length 0 v; omega) rfl
  rw [List.append_nil] at hps
  simp only [loads, dumps, loadsChars, data_mk]
  rw [hskip, hps]
  simp [skipWs]

theorem run_response_decoded (st : Nat) (txt : String) (j : JsonValue) (h : loads txt = some j) :
    run (.response st txt) = [.printLine (toString st), .printLine txt, .printLine (pyRepr j),
      .openTrunc tempPath, .writeFile tempPath (dumps j), .exitNormal] := by
  simp [run, h]

theorem run_response_undecoded (st : Nat) (txt : String) (h : loads txt = none) :
    run (.response st txt) = [.printLine (toString st), .printLine txt,
      .raiseFatal ("JSONDecodeError")] := by
  simp [run, h]

theorem empty_append_str (s : String) : "" ++ s = s := rfl

/-- C1: for every response whose body is valid JSON, decoding to `B`, the content written to
`temp.json` is exactly `json.dumps(B, indent=4)` — the body re-serialized with 4-space
indentation and insertion-ordered keys — and parsing the written content yields `B` again
(round-trip `parse(written_file) = B`). -/
theorem C1_written_file_roundtrip (st : Nat) (txt : String) (B : JsonValue) (fs : Option String)
    (h : loads txt = some B) :
    finalFile fs (run (.response st txt)) = some (dumps B) ∧ loads (dumps B) = some B := by
  constructor
  · rw [run_response_decoded st txt B h]
    simp [finalFile, applyEvent]
  · exact loads_dumps B (loads_wf txt B h)

theorem C1_written_file_roundtrip_witness :
    finalFile none (run (.response 200 ("[1]"))) = some (dumps (.arr [.num 1])) ∧
      loads (dumps (.arr [.num 1])) = some (.arr [.num 1]) :=
  C1_written_file_roundtrip 200 ("[1]") (.arr [.num 1]) none rfl

/-- C2 counterexample: the claim that the successful run closes the output file in a
guaranteed scoped manner is false of the code: on the concrete successful run with status 200
and body `false`, the trace opens and writes `temp.json` but contains no close event —
`src/main.py` has no `close()` call and no `with` block. -/
theorem C2_close_counterexample :
    Event.writeFile tempPath (dumps (.bool false)) ∈ run (.response 200 ("false")) ∧
      (∀ p, Event.closeFile p ∉ run (.response 200 ("false"))) := by
  rw [run_response_decoded 200 ("false") (.bool false) rfl]
  constructor
  · simp
  · intro p
    simp

/-- C2 amended: on the successful straight-line run the script opens `temp.json` with
truncation and writes the serialized body, but the file handle is never explicitly closed —
no trace of any run contains a close event; the handle is only released by the runtime when
the process exits. -/
theorem C2_no_close (st : Nat) (txt : String) (j : JsonValue) (t : TransportResult)
    (p : String) (h : loads txt = some j) :
    Event.openTrunc tempPath ∈ run (.response st txt) ∧
    Event.writeFile tempPath (dumps j) ∈ run (.response st txt) ∧
    Event.closeFile p ∉ run t := by
  rw [run_response_decoded st txt j h]
  refine ⟨by simp, by simp, ?_⟩
  cases t with
  | failure => simp [run]
  | response st2 txt2 =>
    cases hl : loads txt2 with
    | none => simp [run, hl]
    | some j2 => simp [run, hl]

theorem C2_no_close_witness :
    Event.openTrunc tempPath ∈ run (.response 200 ("null")) ∧
    Event.writeFile tempPath (dumps .null) ∈ run (.response 200 ("null")) ∧
    Event.closeFile tempPath ∉ run (.response 200 ("null")) :=
  C2_no_close 200 ("null") .null (.response 200 ("null")) tempPath rfl

/-- C3: when the response body is not valid JSON, the run prints exactly the status code and
the raw text, in that order, and then aborts with the fatal decode error: the parsed-JSON
print never happens, no file is opened or written, and the file system is untouched. -/
theorem C3_decode_error_aborts (st : Nat) (txt : String) (p c : String) (fs : Option String)
    (h : loads txt = none) :
    run (.response st txt) = [.printLine (toString st), .printLine txt,
      .raiseFatal ("JSONDecodeError")] ∧
    stdoutOf (run (.response st txt)) = [toString st, txt] ∧
    Event.writeFile p c ∉ run (.response st txt) ∧
    finalFile fs (run (.response st txt)) = fs := by
  rw [run_response_undecoded st txt h]
  refine ⟨rfl, by simp [stdoutOf], by simp, by simp [finalFile, applyEvent]⟩

theorem C3_decode_error_aborts_witness :
    run (.response 200 ("not json")) = [.printLine (toString 200), .printLine ("not json"),
      .raiseFatal ("JSONDecodeError")] ∧
    stdoutOf (run (.response 200 ("not json"))) = [toString 200, "not json"] ∧
    Event.writeFile tempPath (dumps .null) ∉ run (.response 200 ("not json")) ∧
    finalFile (some ("old")) (run (.response 200 ("not json"))) = some ("old") :=
  C3_decode_error_aborts 200 ("not json") tempPath (dumps .null) (some ("old")) rfl

/-- C4: a connection-level transport failure makes the run abort before producing any output:
nothing is printed, no file event occurs, and any pre-existing `temp.json` content is left
exactly as it was. -/
theorem C4_transport_failure_no_output (fs : Option String) :
    run .failure = [.raiseFatal ("ConnectionError")] ∧
    stdoutOf (run .failure) = [] ∧
    finalFile fs (run .failure) = fs := by
  refine ⟨rfl, rfl, ?_⟩
  simp [run, finalFile, applyEvent]

/-- C5: on every run that reaches and completes the reporting step (the body decodes to `j`),
exactly three items are printed to standard output in this fixed order: the status code, the
raw text body, and the default textual representation of the decoded structure — for every
status code, non-success codes included. A run whose decode fails aborts mid-report and is
governed by C3. -/
theorem C5_three_prints_in_order (st : Nat) (txt : String) (j : JsonValue)
    (h : loads txt = some j) :
    stdoutOf (run (.response st txt)) = [toString st, txt, pyRepr j] := by
  rw [run_response_decoded st txt j h]
  simp [stdoutOf]

theorem C5_three_prints_in_order_witness :
    stdoutOf (run (.response 401 ("7"))) = [toString 401, "7", pyRepr (.num 7)] :=
  C5_three_prints_in_order 401 ("7") (.num 7) rfl

/-- C6: the single request is a GET to the URL obtained by substituting the provider key and
organization name verbatim (plain string concatenation, no URL-encoding) into the fixed path
template, carrying exactly the headers `Accept: application/json` and `api-token` with the
empty token; the URL is a deterministic function of the two path segments. -/
theorem C6_request_url_and_headers :
    theRequest.method = "GET" ∧
    theRequest.url = requestUrl provider remoteOrganizationName ∧
    theRequest.headers = [("Accept", "application/json"), ("api-token", "")] ∧
    (∀ p org, requestUrl p org =
      "https://app.codacy.com/api/v3/analysis/organizations/" ++ p ++ ("/" ++ (org ++
        "/repositories"))) := by
  refine ⟨rfl, rfl, rfl, ?_⟩
  intro p org
  simp [requestUrl, String.append_assoc]

/-- C7: a response with a non-2xx status code and a valid JSON body is treated exactly like a
success: all three lines are printed, the error payload is persisted to `temp.json` as-is,
the run ends in a normal exit (exit code 0), and the trace after the printed status line is
identical to the trace of a 200 response with the same body. -/
theorem C7_non_2xx_like_success (st : Nat) (txt : String) (j : JsonValue) (fs : Option String)
    (h : loads txt = some j) (hst : ¬ (200 ≤ st ∧ st ≤ 299)) :
    stdoutOf (run (.response st txt)) = [toString st, txt, pyRepr j] ∧
    finalFile fs (run (.response st txt)) = some (dumps j) ∧
    Event.exitNormal ∈ run (.response st txt) ∧
    (run (.response st txt)).tail = (run (.response 200 txt)).tail := by
  rw [run_response_decoded st txt j h, run_response_decoded 200 txt j h]
  exact ⟨by simp [stdoutOf], by simp [finalFile, applyEvent], by simp, rfl⟩

theorem C7_non_2xx_like_success_witness :
    stdoutOf (run (.response 401 ("\x7b\"error\": \"unauthorized\"\x7d"))) =
      [toString 401, "\x7b\"error\": \"unauthorized\"\x7d",
        pyRepr (.obj [("error", .str ("unauthorized"))])] ∧
    finalFile none (run (.response 401 ("\x7b\"error\": \"unauthorized\"\x7d"))) =
      some (dumps (.obj [("error", .str ("unauthorized"))])) ∧
    Event.exitNormal ∈ run (.response 401 ("\x7b\"error\": \"unauthorized\"\x7d")) ∧
    (run (.response 401 ("\x7b\"error\": \"unauthorized\"\x7d"))).tail =
      (run (.response 200 ("\x7b\"error\": \"unauthorized\"\x7d"))).tail :=
  C7_non_2xx_like_success 401 ("\x7b\"error\": \"unauthorized\"\x7d")
    (.obj [("error", .str ("unauthorized"))]) none rfl (by decide)

/-- C8: serialization of a decoded value is deterministic and `temp.json` is
created-or-truncated on every run with no append semantics: the final content is independent
of any pre-existing content, so running the program twice against the same successful
response produces byte-identical `temp.json` contents both times. -/
theorem C8_byte_identical_reruns (st : Nat) (txt : String) (j : JsonValue)
    (fs fs1 fs2 : Option String) (h : loads txt = some j) :
    finalFile fs (run (.response st txt)) = some (dumps j) ∧
    finalFile fs1 (run (.response st txt)) = finalFile fs2 (run (.response st txt)) := by
  have key : ∀ fs0, finalFile fs0 (run (.response st txt)) = some (dumps j) := by
    intro fs0
    rw [run_response_decoded st txt j h]
    simp [finalFile, applyEvent]
  exact ⟨key fs, by rw [key fs1, key fs2]⟩

theorem C8_byte_identical_reruns_witness :
    finalFile none (run (.response 200 ("[0]"))) = some (dumps (.arr [.num 0])) ∧
    finalFile (some ("prior")) (run (.response 200 ("[0]"))) =
      finalFile none (run (.response 200 ("[0]"))) :=
  C8_byte_identical_reruns 200 ("[0]") (.arr [.num 0]) none (some ("prior")) none rfl

/-- C9: on a decode failure the output file is never opened at all: the failing decode
happens at the `print(r.json())` step, before the `open('temp.json', 'w')` call, so no open
event occurs and a pre-existing `temp.json` is neither truncated nor modified — on decode
errors just as on transport errors. -/
theorem C9_no_open_on_decode_error (st : Nat) (txt : String) (p : String) (fs : Option String)
    (h : loads txt = none) :
    Event.openTrunc p ∉ run (.response st txt) ∧
    finalFile fs (run (.response st txt)) = fs := by
  rw [run_response_undecoded st txt h]
  exact ⟨by simp, by simp [finalFile, applyEvent]⟩

theorem C9_no_open_on_decode_error_witness :
    Event.openTrunc tempPath ∉ run (.response 500 ("oops")) ∧
    finalFile (some ("prior")) (run (.response 500 ("oops"))) = some ("prior") :=
  C9_no_open_on_decode_error 500 ("oops") tempPath (some ("prior")) rfl

/-- C10: the response body is decoded twice — once for the third print and once inside the
file-write expression — and both decodes read the same stored text, so the JSON value
persisted to `temp.json` equals the JSON value printed as the third stdout line: the file
holds `dumps j` for the same `j` whose representation was printed, and parsing the file
content returns exactly that `j`. -/
theorem C10_print_and_file_agree (st : Nat) (txt : String) (j : JsonValue) (fs : Option String)
    (h : loads txt = some j) :
    stdoutOf (run (.response st txt)) = [toString st, txt, pyRepr j] ∧
    finalFile fs (run (.response st txt)) = some (dumps j) ∧
    loads (dumps j) = some j := by
  refine ⟨?_, ?_, loads_dumps j (loads_wf txt j h)⟩
  · rw [run_response_decoded st txt j h]
    simp [stdoutOf]
  · rw [run_response_decoded st txt j h]
    simp [finalFile, applyEvent]

theorem C10_print_and_file_agree_witness :
    stdoutOf (run (.response 200 ("[true]"))) =
      [toString 200, "[true]", pyRepr (.arr [.bool true])] ∧
    finalFile none (run (.response 200 ("[true]"))) = some (dumps (.arr [.bool true])) ∧
    loads (dumps (.arr [.bool true])) = some (.arr [.bool true]) :=
  C10_print_and_file_agree 200 ("[true]") (.arr [.bool true]) none rfl
